import Mathlib

/-!
Verification of the ninja-generation backend (`ninja.go`) of kati.

Go strings are embedded as `List Char` (`GoStr`).  All functions are direct
transcriptions of the Go source; the few helpers that the source calls but
that are not part of the provided file (`trimLeftSpace`, `stripExt`) are
modelled from the specification and marked as such in their doc comments.
-/

namespace Kati

abbrev GoStr := List Char

/-- Coerce a Lean string literal to the `List Char` embedding of Go strings. -/
def gs (s : String) : GoStr := s.data

/-- The single-quote character (kept out of literals for clarity). -/
def sq : Char := Char.ofNat 39

/-- The double-quote character. -/
def dq : Char := Char.ofNat 34

/-- The backquote character. -/
def bq : Char := Char.ofNat 96

/-- Go `strings.Index`: index of the first occurrence of `pat` in `s`,
`none` when `pat` does not occur (`-1` in Go). -/
def indexOfSub : GoStr → GoStr → Option Nat
  | [], pat => if pat.isPrefixOf [] then some 0 else none
  | c :: rest, pat =>
    if pat.isPrefixOf (c :: rest) then some 0
    else (indexOfSub rest pat).map (· + 1)

/-- Go `strings.Contains`. -/
def containsSub (s pat : GoStr) : Bool := (indexOfSub s pat).isSome

/-- Go `strings.IndexAny`: index of the first character of `s` that belongs
to `set`. -/
def indexAnyGo : GoStr → List Char → Option Nat
  | [], _ => none
  | c :: rest, set =>
    if set.contains c then some 0
    else (indexAnyGo rest set).map (· + 1)

/-- Modelled from the spec: the repository helper `trimLeftSpace` (not part
of the provided source file) trims leading whitespace from a command
fragment. -/
def trimLeftSpace (s : GoStr) : GoStr :=
  s.dropWhile (fun c => c = ' ' || c = '\t')

/-- Go `strings.TrimRight` with an explicit cutset. -/
def trimRightCut (s : GoStr) (cutset : List Char) : GoStr :=
  (s.reverse.dropWhile (fun c => cutset.contains c)).reverse

/-- Modelled from the spec: the repository helper `stripExt` (not part of the
provided source file) strips the path's extension, i.e. removes the suffix
starting at the final dot, leaving the string unchanged when it has no dot. -/
def stripExt (s : GoStr) : GoStr :=
  match s.reverse.dropWhile (fun c => c ≠ '.') with
  | [] => s
  | _ :: rest => rest.reverse

/-- Go standard library `filepath.Base` for slash-separated paths: strip
trailing slashes, keep the part after the last remaining slash; empty input
gives `"."`, an all-slash input gives `"/"`. -/
def filepathBase (s : GoStr) : GoStr :=
  if s = [] then ['.']
  else
    let s1 := trimRightCut s ['/']
    let s2 := (s1.reverse.takeWhile (fun c => c ≠ '/')).reverse
    if s2 = [] then ['/'] else s2

/-- The whitespace characters used by `getDepfileImpl`'s `IndexAny` calls. -/
def wsChars : List Char := [' ', '\t', '\n']

/-- Cut `s` at its first space, tab or newline (`strings.IndexAny` followed
by slicing, as in `getDepfileImpl`). -/
def cutAtWs (s : GoStr) : GoStr :=
  match indexAnyGo s wsChars with
  | some j => s.take j
  | none => s

/-! ## stripShellComment (ninja.go lines 100-128) -/

/-- The scanning loop of `stripShellComment`: `escape` is the Go `escape`
flag, `quote` the active quote character (`none` for Go's `quote == 0`).
Transcribed from the `for i, c := range s` loop. -/
def stripSCLoop : Bool → Option Char → GoStr → GoStr
  | _, _, [] => []
  | escape, some q, c :: rest =>
    let q' : Option Char := if q = c ∧ (q = sq ∨ escape = false) then none else some q
    c :: stripSCLoop (escape = false ∧ c = '\\') q' rest
  | escape, none, c :: rest =>
    if escape = false ∧ c = '#' then []
    else
      let q' : Option Char :=
        if escape = false ∧ (c = sq ∨ c = dq ∨ c = bq) then some c else none
      c :: stripSCLoop (escape = false ∧ c = '\\') q' rest

/-- `stripShellComment` from ninja.go: fast path when no `#` occurs at all,
otherwise the quote/escape-aware scan. -/
def stripShellComment (s : GoStr) : GoStr :=
  if s.contains '#' then stripSCLoop false none s else s

/-! Specification-side formulation of comment stripping: a scan state, a
step function worded after the spec's description, and truncation of the
input at the first comment-start index. -/

/-- Scanner state for the spec-side description of comment stripping. -/
structure ScanState where
  escape : Bool
  quote : Option Char
deriving DecidableEq

/-- One spec-side scan step: a pending escape arises from an unescaped
backslash; inside single quotes a backslash never escapes the closing quote,
inside double quotes or backticks the closing character must be unescaped;
an opening quote is recognised only outside quotes and unescaped. -/
def scanStep (st : ScanState) (c : Char) : ScanState :=
  match st.quote with
  | some q =>
    { escape := st.escape = false ∧ c = '\\'
      quote := if q = c ∧ (q = sq ∨ st.escape = false) then none else some q }
  | none =>
    { escape := st.escape = false ∧ c = '\\'
      quote := if st.escape = false ∧ (c = sq ∨ c = dq ∨ c = bq) then some c else none }

/-- Index of the first `#` that is outside quotes and not preceded by an
unescaped backslash, relative to a starting scan state. -/
def commentIdx : ScanState → GoStr → Option Nat
  | _, [] => none
  | st, c :: rest =>
    if st.quote = none ∧ st.escape = false ∧ c = '#' then some 0
    else (commentIdx (scanStep st c) rest).map (· + 1)

/-- Spec-side comment stripping: truncate at the first unquoted, unescaped
`#`, or return the string unchanged when there is none. -/
def stripSpec (s : GoStr) : GoStr :=
  match commentIdx ⟨false, none⟩ s with
  | none => s
  | some i => s.take i

theorem stripSCLoop_eq_commentIdx (s : GoStr) :
    ∀ e : Bool, ∀ q : Option Char,
      stripSCLoop e q s =
        match commentIdx ⟨e, q⟩ s with
        | none => s
        | some i => s.take i := by
  induction s with
  | nil => intro e q; cases q <;> rfl
  | cons c rest ih =>
    intro e q
    cases q with
    | some qc =>
      have hstep : scanStep ⟨e, some qc⟩ c =
          ⟨decide (e = false ∧ c = '\\'),
           if qc = c ∧ (qc = sq ∨ e = false) then none else some qc⟩ := by
        simp [scanStep]
      have hidx : commentIdx ⟨e, some qc⟩ (c :: rest) =
          (commentIdx (scanStep ⟨e, some qc⟩ c) rest).map (· + 1) := by
        simp [commentIdx]
      show (c :: stripSCLoop (e = false ∧ c = '\\')
          (if qc = c ∧ (qc = sq ∨ e = false) then none else some qc) rest) = _
      rw [hidx, hstep]
      rw [ih (decide (e = false ∧ c = '\\'))
          (if qc = c ∧ (qc = sq ∨ e = false) then none else some qc)]
      cases h : commentIdx ⟨decide (e = false ∧ c = '\\'),
          if qc = c ∧ (qc = sq ∨ e = false) then none else some qc⟩ rest <;> simp [h]
    | none =>
      by_cases hc : e = false ∧ c = '#'
      · have h1 : stripSCLoop e none (c :: rest) = [] := by
          simp [stripSCLoop, hc]
        have h2 : commentIdx ⟨e, none⟩ (c :: rest) = some 0 := by
          simp [commentIdx, hc.1, hc.2]
        rw [h1, h2]
        rfl
      · have h1 : stripSCLoop e none (c :: rest) =
            c :: stripSCLoop (e = false ∧ c = '\\')
              (if e = false ∧ (c = sq ∨ c = dq ∨ c = bq) then some c else none) rest := by
          simp [stripSCLoop, hc]
        have hstep : scanStep ⟨e, none⟩ c =
            ⟨decide (e = false ∧ c = '\\'),
             if e = false ∧ (c = sq ∨ c = dq ∨ c = bq) then some c else none⟩ := by
          simp [scanStep]
        have hidx : commentIdx ⟨e, none⟩ (c :: rest) =
            (commentIdx (scanStep ⟨e, none⟩ c) rest).map (· + 1) := by
          simp only [commentIdx]
          rw [if_neg (by intro hcontr; exact hc ⟨hcontr.2.1, hcontr.2.2⟩)]
        rw [h1, hidx, hstep]
        rw [ih (decide (e = false ∧ c = '\\'))
            (if e = false ∧ (c = sq ∨ c = dq ∨ c = bq) then some c else none)]
        cases h : commentIdx ⟨decide (e = false ∧ c = '\\'),
            if e = false ∧ (c = sq ∨ c = dq ∨ c = bq) then some c else none⟩ rest <;> simp [h]

theorem commentIdx_none_of_no_hash (s : GoStr) :
    ∀ st, '#' ∉ s → commentIdx st s = none := by
  induction s with
  | nil => intro st _; rfl
  | cons c rest ih =>
    intro st h
    have hc : c ≠ '#' := by intro hc; exact h (hc ▸ List.mem_cons_self c rest)
    have hrest : '#' ∉ rest := fun hm => h (List.mem_cons_of_mem c hm)
    simp only [commentIdx]
    rw [if_neg (by intro hcontr; exact hc hcontr.2.2), ih _ hrest]
    rfl

theorem stripShellComment_eq_stripSpec (s : GoStr) :
    stripShellComment s = stripSpec s := by
  unfold stripShellComment stripSpec
  by_cases h : '#' ∈ s
  · rw [if_pos (by simpa using h), stripSCLoop_eq_commentIdx]
  · rw [if_neg (by simpa using h), commentIdx_none_of_no_hash s _ h]

/-- C3: `stripShellComment` truncates its input at the first `#` that is
outside single quotes, double quotes and backticks and is not preceded by an
unescaped backslash (with a backslash never escaping the closing quote
inside single quotes), and leaves the input unchanged when no such `#`
exists; concretely it leaves `echo 'a#b'` unchanged and maps
`echo a #comment` to `echo a `. -/
theorem c3_strip_comment_spec :
    (∀ s : GoStr, stripShellComment s = stripSpec s) ∧
    stripShellComment (gs "echo " ++ [sq, 'a', '#', 'b', sq]) =
      gs "echo " ++ [sq, 'a', '#', 'b', sq] ∧
    stripShellComment (gs "echo a #comment") = gs "echo a " :=
  ⟨stripShellComment_eq_stripSpec, by decide, by decide⟩

/-! ## Depfile resolution (ninja.go lines 38-98) -/

/-- `getDepfileImpl` from ninja.go, transcribed clause by clause; the Go
`(string, error)` pair becomes `Except`. -/
def getDepfileImpl (ss : GoStr) : Except GoStr GoStr :=
  let tss := ss ++ [' ']
  if !containsSub tss (gs " -MD ") && !containsSub tss (gs " -MMD ") then
    .ok []
  else
    match indexOfSub ss (gs " -MF ") with
    | some mfIndex =>
      let mf := trimLeftSpace (ss.drop (mfIndex + 4))
      if containsSub mf (gs " -MF ") then
        .error (gs "Multiple output file candidates in " ++ ss)
      else
        .ok (cutAtWs mf)
    | none =>
      match indexOfSub ss (gs " -o ") with
      | none => .error (gs "Cannot find the depfile in " ++ ss)
      | some outIndex =>
        let out := trimLeftSpace (ss.drop (outIndex + 4))
        if containsSub out (gs " -o ") then
          .error (gs "Multiple output file candidates in " ++ ss)
        else
          .ok (stripExt (cutAtWs out) ++ gs ".d")

/-- `getDepfile` from ninja.go: the llvm-rs-cc special case, then
`getDepfileImpl`, then the `.P` and assembly-source post-checks. -/
def getDepfile (ss : GoStr) : Except GoStr GoStr :=
  if containsSub ss (gs "bin/llvm-rs-cc ") then .ok []
  else
    match getDepfileImpl ss with
    | .error e => .error e
    | .ok r =>
      if r = [] then .ok r
      else
        let p := stripExt r ++ gs ".P"
        if containsSub ss p then .ok p
        else
          let as := '/' :: (stripExt (filepathBase r) ++ gs ".s")
          if containsSub ss as then .ok []
          else .ok r

/-- Whether the command requests dependency tracking: a space-delimited
`-MD` or `-MMD` flag occurs (the scan appends one space, so a flag ending
the command counts). -/
def hasDepFlags (ss : GoStr) : Bool :=
  containsSub (ss ++ [' ']) (gs " -MD ") || containsSub (ss ++ [' ']) (gs " -MMD ")

/-- Spec-side description of the extracted flag argument: after position
`i + 4` (the end of the matched flag text), skip leading whitespace and take
the whitespace-delimited token. -/
def tokenAfterFlag (ss : GoStr) (i : Nat) : GoStr :=
  ((ss.drop (i + 4)).dropWhile (fun c => c = ' ' || c = '\t')).takeWhile
    (fun c => !wsChars.contains c)

theorem containsSub_cons (c : Char) (rest pat : GoStr) :
    containsSub (c :: rest) pat =
      (pat.isPrefixOf (c :: rest) || containsSub rest pat) := by
  simp only [containsSub, indexOfSub]
  by_cases h : pat.isPrefixOf (c :: rest)
  · simp [h]
  · simp [h]

theorem containsSub_of_containsSub_drop (k : Nat) (t pat : GoStr)
    (h : containsSub (t.drop k) pat = true) : containsSub t pat = true := by
  induction t generalizing k with
  | nil => simpa using h
  | cons c rest ih =>
    cases k with
    | zero => simpa using h
    | succ k' =>
      have h' : containsSub rest pat = true := ih k' (by simpa using h)
      rw [containsSub_cons]
      simp [h']

theorem cutAtWs_eq_takeWhile (s : GoStr) :
    cutAtWs s = s.takeWhile (fun c => !wsChars.contains c) := by
  induction s with
  | nil => rfl
  | cons c rest ih =>
    by_cases hm : c ∈ wsChars
    · simp [cutAtWs, indexAnyGo, List.takeWhile_cons, hm]
    · have hcontains : wsChars.contains c = false := by simp [hm]
      have hR : List.takeWhile (fun x => !wsChars.contains x) (c :: rest)
          = c :: List.takeWhile (fun x => !wsChars.contains x) rest := by
        simp [List.takeWhile_cons, hm]
      cases hidx : indexAnyGo rest wsChars with
      | none =>
        simp only [cutAtWs, hidx] at ih
        have hL : cutAtWs (c :: rest) = c :: rest := by
          simp [cutAtWs, indexAnyGo, hm, hidx]
        rw [hL, hR, ← ih]
      | some j =>
        simp only [cutAtWs, hidx] at ih
        have hL : cutAtWs (c :: rest) = c :: List.take j rest := by
          simp [cutAtWs, indexAnyGo, hm, hidx]
        rw [hL, hR, ← ih]

theorem trimLeftSpace_eq_drop (s : GoStr) : ∃ k, trimLeftSpace s = s.drop k := by
  induction s with
  | nil => exact ⟨0, rfl⟩
  | cons c rest ih =>
    by_cases h : (c = ' ' || c = '\t') = true
    · obtain ⟨k, hk⟩ := ih
      exact ⟨k + 1, by simpa [trimLeftSpace, h] using hk⟩
    · exact ⟨0, by simp [trimLeftSpace, h]⟩

theorem containsSub_trimmed_false (ss pat : GoStr) (i : Nat)
    (h : containsSub (ss.drop (i + 1)) pat = false) :
    containsSub (trimLeftSpace (ss.drop (i + 4))) pat = false := by
  obtain ⟨k, hk⟩ := trimLeftSpace_eq_drop (ss.drop (i + 4))
  rw [hk, List.drop_drop]
  cases hb : containsSub (ss.drop (i + 4 + k)) pat with
  | false => rfl
  | true =>
    exfalso
    have h2 : ss.drop (i + 4 + k) = (ss.drop (i + 1)).drop (3 + k) := by
      rw [List.drop_drop]
      congr 1
      omega
    rw [h2] at hb
    have := containsSub_of_containsSub_drop (3 + k) (ss.drop (i + 1)) pat hb
    rw [this] at h
    exact Bool.true_eq_false.mp h

theorem depGuard_false (ss : GoStr) (h : hasDepFlags ss = true) :
    (!containsSub (ss ++ [' ']) (gs " -MD ")
      && !containsSub (ss ++ [' ']) (gs " -MMD ")) = false := by
  simp only [hasDepFlags, Bool.or_eq_true] at h
  rcases h with h | h <;> simp [h]

/-- `getDepfileImpl` yields an error exactly when: a further ` -MF ` occurs
in the whitespace-trimmed text after the first ` -MF `; or no ` -MF ` occurs
and either no ` -o ` occurs or a further ` -o ` occurs in the trimmed text
after the first one. -/
def depfileErrCond (ss : GoStr) : Bool :=
  match indexOfSub ss (gs " -MF ") with
  | some i => containsSub (trimLeftSpace (ss.drop (i + 4))) (gs " -MF ")
  | none =>
    match indexOfSub ss (gs " -o ") with
    | none => true
    | some j => containsSub (trimLeftSpace (ss.drop (j + 4))) (gs " -o ")

deriving instance DecidableEq for Except

/-- Whether an `Except` result is an error (`err != nil` in Go). -/
def errOf : Except GoStr GoStr → Bool
  | .error _ => true
  | .ok _ => false

theorem getDepfileImpl_err (ss : GoStr) (h : hasDepFlags ss = true) :
    errOf (getDepfileImpl ss) = depfileErrCond ss := by
  simp only [getDepfileImpl, depfileErrCond, depGuard_false ss h, Bool.false_eq_true,
    if_false]
  cases hmf : indexOfSub ss (gs " -MF ") with
  | some i =>
    cases hc : containsSub (trimLeftSpace (ss.drop (i + 4))) (gs " -MF ") <;>
      simp [hc, errOf]
  | none =>
    cases ho : indexOfSub ss (gs " -o ") with
    | none => rfl
    | some j =>
      cases hc : containsSub (trimLeftSpace (ss.drop (j + 4))) (gs " -o ") <;>
        simp [hc, errOf]

theorem getDepfile_err (ss : GoStr) (hllvm : containsSub ss (gs "bin/llvm-rs-cc ") = false) :
    errOf (getDepfile ss) = errOf (getDepfileImpl ss) := by
  simp only [getDepfile, hllvm, Bool.false_eq_true, if_false]
  cases himpl : getDepfileImpl ss with
  | error e => rfl
  | ok r =>
    simp only [errOf]
    by_cases hr : r = []
    · simp [hr, errOf]
    · simp only [if_neg hr]
      by_cases hp : containsSub ss (stripExt r ++ gs ".P") = true
      · simp [hp, errOf]
      · simp only [Bool.not_eq_true] at hp
        simp only [hp, Bool.false_eq_true, if_false]
        by_cases ha : containsSub ss ('/' :: (stripExt (filepathBase r) ++ gs ".s")) = true
        · simp [ha, errOf]
        · simp only [Bool.not_eq_true] at ha
          simp [ha, errOf]

/-- C4: the resolver returns an empty path and no error for commands naming
llvm-rs-cc and for commands without a space-delimited `-MD`/`-MMD` flag;
when dependency tracking is requested, a unique ` -MF ` occurrence makes the
flag-extraction step return the whitespace-delimited token following it, and
with no ` -MF ` and a unique ` -o ` occurrence it returns the `-o` path with
its extension replaced by `.d`; concretely `gcc -c foo.c -o foo.o -MD`
resolves to `foo.d`, adding `-MF bar.d` resolves to `bar.d`, and without
`-MD`/`-MMD` the result is empty with no error. -/
theorem c4_depfile_resolution :
    (∀ ss : GoStr, containsSub ss (gs "bin/llvm-rs-cc ") = true →
      getDepfile ss = .ok []) ∧
    (∀ ss : GoStr, hasDepFlags ss = false → getDepfile ss = .ok []) ∧
    (∀ ss : GoStr, ∀ i : Nat, hasDepFlags ss = true →
      indexOfSub ss (gs " -MF ") = some i →
      containsSub (ss.drop (i + 1)) (gs " -MF ") = false →
      getDepfileImpl ss = .ok (tokenAfterFlag ss i)) ∧
    (∀ ss : GoStr, ∀ i : Nat, hasDepFlags ss = true →
      containsSub ss (gs " -MF ") = false →
      indexOfSub ss (gs " -o ") = some i →
      containsSub (ss.drop (i + 1)) (gs " -o ") = false →
      getDepfileImpl ss = .ok (stripExt (tokenAfterFlag ss i) ++ gs ".d")) ∧
    getDepfile (gs "gcc -c foo.c -o foo.o -MD") = .ok (gs "foo.d") ∧
    getDepfile (gs "gcc -c foo.c -o foo.o -MD -MF bar.d") = .ok (gs "bar.d") ∧
    getDepfile (gs "gcc -c foo.c -o foo.o") = .ok [] := by
  refine ⟨?_, ?_, ?_, ?_, by decide, by decide, by decide⟩
  · intro ss h
    simp [getDepfile, h]
  · intro ss h
    have hguard : (!containsSub (ss ++ [' ']) (gs " -MD ")
        && !containsSub (ss ++ [' ']) (gs " -MMD ")) = true := by
      simp only [hasDepFlags, Bool.or_eq_false_iff] at h
      simp [h.1, h.2]
    have himpl : getDepfileImpl ss = .ok [] := by
      simp [getDepfileImpl, hguard]
    by_cases hllvm : containsSub ss (gs "bin/llvm-rs-cc ") = true
    · simp [getDepfile, hllvm]
    · simp only [Bool.not_eq_true] at hllvm
      simp [getDepfile, hllvm, himpl]
  · intro ss i h hmf hnodup
    have htrim := containsSub_trimmed_false ss (gs " -MF ") i hnodup
    simp only [getDepfileImpl, depGuard_false ss h, Bool.false_eq_true, if_false, hmf,
      htrim]
    rw [cutAtWs_eq_takeWhile]
    rfl
  · intro ss i h hnomf ho hnodup
    have hmfnone : indexOfSub ss (gs " -MF ") = none := by
      cases hio : indexOfSub ss (gs " -MF ") with
      | none => rfl
      | some k =>
        exfalso
        have : containsSub ss (gs " -MF ") = true := by
          simp [containsSub, hio]
        rw [this] at hnomf
        exact Bool.true_eq_false.mp hnomf
    have htrim := containsSub_trimmed_false ss (gs " -o ") i hnodup
    simp only [getDepfileImpl, depGuard_false ss h, Bool.false_eq_true, if_false,
      hmfnone, ho, htrim]
    rw [cutAtWs_eq_takeWhile]
    rfl

/-- C5 counterexample: in `cc -MD -MF  -MF y` (two spaces between the
flags) a second ` -MF ` occurrence follows the first (occurrences at
indices 6 and 11), dependency tracking is requested and llvm-rs-cc is not
involved, yet the resolver returns `-MF` with no error, because the code
checks for the second flag only after trimming leading whitespace. -/
theorem c5_counterexample :
    hasDepFlags (gs "cc -MD -MF  -MF y") = true ∧
    containsSub (gs "cc -MD -MF  -MF y") (gs "bin/llvm-rs-cc ") = false ∧
    (gs " -MF ").isPrefixOf ((gs "cc -MD -MF  -MF y").drop 6) = true ∧
    (gs " -MF ").isPrefixOf ((gs "cc -MD -MF  -MF y").drop 11) = true ∧
    getDepfile (gs "cc -MD -MF  -MF y") = .ok (gs "-MF") := by decide

/-- C6 counterexample: for `gcc -c foo.s -o foo.o -MD` the claim predicts an
empty result, but the command text does not contain `/foo.s` (there is no
slash before `foo.s`), so the assembly post-check does not fire and the
resolver returns `foo.d` with no error. -/
theorem c6_counterexample :
    getDepfile (gs "gcc -c foo.s -o foo.o -MD") = .ok (gs "foo.d") ∧
    (Except.ok (gs "foo.d") : Except GoStr GoStr) ≠ .ok [] := by decide

/-- C6 (amended): the assembly post-check returns an empty path and no error
exactly when the command text contains `/` followed by the derived depfile's
basename stem and `.s`; the claim's concrete command lacks the slash, so it
resolves to `foo.d`, while a slashed variant such as
`gcc -c sub/foo.s -o foo.o -MD` does resolve to the empty path. -/
theorem c6_assembly_postcheck :
    (∀ ss r : GoStr, containsSub ss (gs "bin/llvm-rs-cc ") = false →
      getDepfileImpl ss = .ok r → r ≠ [] →
      containsSub ss (stripExt r ++ gs ".P") = false →
      containsSub ss ('/' :: (stripExt (filepathBase r) ++ gs ".s")) = true →
      getDepfile ss = .ok []) ∧
    getDepfile (gs "gcc -c sub/foo.s -o foo.o -MD") = .ok [] := by
  refine ⟨?_, by decide⟩
  intro ss r hllvm himpl hr hp ha
  simp [getDepfile, hllvm, himpl, hr, hp, ha]

/-- C6 witness: the amended post-check applied to the slashed command
`gcc -c sub/foo.s -o foo.o -MD`, whose derived depfile `foo.d` has stem
`foo` and whose text contains `/foo.s`. -/
theorem c6_assembly_postcheck_witness :
    getDepfile (gs "gcc -c sub/foo.s -o foo.o -MD") = .ok [] :=
  c6_assembly_postcheck.1 (gs "gcc -c sub/foo.s -o foo.o -MD") (gs "foo.d")
    (by decide) (by decide) (by decide) (by decide) (by decide)

/-- C4 witness: the flag-extraction clauses applied at concrete commands
`a -MD -MF b` (unique ` -MF ` at index 5, token `b`) and `a -MD -o b.c`
(no ` -MF `, unique ` -o ` at index 5, result `b.d`). -/
theorem c4_depfile_resolution_witness :
    getDepfileImpl (gs "a -MD -MF b") = .ok (tokenAfterFlag (gs "a -MD -MF b") 5) ∧
    getDepfileImpl (gs "a -MD -o b.c") =
      .ok (stripExt (tokenAfterFlag (gs "a -MD -o b.c") 5) ++ gs ".d") :=
  ⟨c4_depfile_resolution.2.2.1 (gs "a -MD -MF b") 5 (by decide) (by decide) (by decide),
   c4_depfile_resolution.2.2.2.1 (gs "a -MD -o b.c") 5 (by decide) (by decide)
     (by decide) (by decide)⟩

/-! ## Shell script generation (ninja.go lines 130-172) -/

/-- The `runner` record of the executor collaborator, as consumed by
`genShellScript`: a raw command and its ignore-error flag. -/
structure runner where
  cmd : GoStr
  ignoreError : Bool
deriving DecidableEq

/-- Fuelled transcription of Go `strings.Replace(s, old, new, -1)` for
nonempty `old` (the only way the source calls it); the fuel is the length of
`s`, enough since every step consumes at least one character. -/
def replaceGo : Nat → GoStr → GoStr → GoStr → GoStr
  | 0, s, _, _ => s
  | _ + 1, [], _, _ => []
  | fuel + 1, c :: rest, old, new =>
    if old ≠ [] ∧ old.isPrefixOf (c :: rest) then
      new ++ replaceGo fuel ((c :: rest).drop old.length) old new
    else
      c :: replaceGo fuel rest old new

/-- Go `strings.Replace(s, old, new, -1)` for nonempty `old`. -/
def replaceAll (s old new : GoStr) : GoStr := replaceGo s.length s old new

/-- The per-command normalisation performed inside `genShellScript`'s loop:
comment stripping, whitespace trimming, continuation splicing, `$` doubling,
tab flattening, the `true` substitute for empty commands, and the gomacc
prefix.  The compiled regular expression `ccRe` is abstracted as the Boolean
parameter `ccMatch`. -/
def normalizeCmd (gomaDir : GoStr) (ccMatch : GoStr → Bool) (r : runner) :
    GoStr × Bool :=
  let c1 := stripShellComment r.cmd
  let c2 := trimLeftSpace c1
  let c3 := replaceAll c2 ['\\', '\n'] [' ']
  let c4 := trimRightCut c3 [' ', '\t', '\n', ';']
  let c5 := replaceAll c4 ['$'] ['$', '$']
  let c6 := replaceAll c5 ['\t'] [' ']
  let c7 := if c6 = [] then gs "true" else c6
  if !gomaDir.isEmpty && ccMatch c7 then (gomaDir ++ gs "/gomacc " ++ c7, true)
  else (c7, false)

/-- Whether a command text begins with `(` (`cmd[0] == '('` in the Go
source; commands there are never empty because empty ones become `true`). -/
def headIsParen : GoStr → Bool
  | c :: _ => c = '('
  | [] => false

/-- The text emitted for the command at position `i` of `n`:
`needsSubShell := i > 0 || len(runners) > 1`, cancelled when the command
already starts with `(`; a tolerant last command gets ` ; true` before the
closing parenthesis. -/
def fragmentGo (n i : Nat) (cmd : GoStr) (ignore : Bool) : GoStr :=
  let needsSub := (decide (0 < i) || decide (1 < n)) && !headIsParen cmd
  let tail := if i = n - 1 ∧ ignore = true then gs " ; true" else []
  if needsSub = true then ('(' :: (cmd ++ tail)) ++ [')'] else cmd ++ tail

/-- The accumulation loop of `genShellScript`: `prev` carries the previous
command's ignore-error flag (`none` before the first command) and selects
the ` ; ` / ` && ` separator. -/
def genLoop (gd : GoStr) (cc : GoStr → Bool) (n : Nat) :
    Nat → Option Bool → List runner → GoStr × Bool
  | _, _, [] => ([], false)
  | i, prev, r :: rest =>
    let sep : GoStr :=
      match prev with
      | none => []
      | some b => if b then gs " ; " else gs " && "
    let p := normalizeCmd gd cc r
    let restRes := genLoop gd cc n (i + 1) (some r.ignoreError) rest
    (sep ++ fragmentGo n i p.1 r.ignoreError ++ restRes.1, p.2 || restRes.2)

/-- `genShellScript` from ninja.go: the chain text plus the
use-local-pool flag `gomaDir != "" && !useGomacc`. -/
def genShellScript (gd : GoStr) (cc : GoStr → Bool) (rs : List runner) :
    GoStr × Bool :=
  let res := genLoop gd cc rs.length 0 none rs
  (res.1, !gd.isEmpty && !res.2)

/-- Spec-side separator: ` ; ` after an error-tolerant command, ` && `
after a strict one. -/
def sepSpec (prevIgnore : Bool) : GoStr :=
  if prevIgnore then gs " ; " else gs " && "

/-- Spec-side emitted piece for the command at position `i` of `n`: the
normalized text, with ` ; true` appended when it is the last command and
error-tolerant, wrapped in a sub-shell unless it is the sole first command
or already starts with `(`. -/
def pieceSpec (gd : GoStr) (cc : GoStr → Bool) (n i : Nat) (r : runner) : GoStr :=
  let cmd := (normalizeCmd gd cc r).1
  let body := cmd ++ (if i = n - 1 ∧ r.ignoreError = true then gs " ; true" else [])
  if (i = 0 ∧ n = 1) ∨ headIsParen cmd = true then body else ('(' :: body) ++ [')']

/-- Spec-side chain: each later piece is preceded by the separator chosen by
the previous command's ignore-error flag. -/
def chainTail (gd : GoStr) (cc : GoStr → Bool) (n : Nat) :
    Nat → Bool → List runner → GoStr
  | _, _, [] => []
  | i, prev, r :: rest =>
    sepSpec prev ++ pieceSpec gd cc n i r ++ chainTail gd cc n (i + 1) r.ignoreError rest

/-- Spec-side description of the whole chain text. -/
def chainSpec (gd : GoStr) (cc : GoStr → Bool) (rs : List runner) : GoStr :=
  match rs with
  | [] => []
  | r :: rest =>
    pieceSpec gd cc rs.length 0 r ++ chainTail gd cc rs.length 1 r.ignoreError rest

theorem fragmentGo_eq_pieceSpec (gd : GoStr) (cc : GoStr → Bool) (n i : Nat)
    (r : runner) (hn : 1 ≤ n) :
    fragmentGo n i (normalizeCmd gd cc r).1 r.ignoreError = pieceSpec gd cc n i r := by
  unfold fragmentGo pieceSpec
  by_cases hp : headIsParen (normalizeCmd gd cc r).1 = true
  · simp [hp]
  · simp only [Bool.not_eq_true] at hp
    by_cases hi : i = 0 ∧ n = 1
    · simp [hp, hi.1, hi.2]
    · have hor : 0 < i ∨ 1 < n := by omega
      have hcond : (decide (0 < i) || decide (1 < n)) = true := by
        rcases hor with h | h <;> simp [h]
      simp [hp, hi, hcond]

theorem genLoop_eq_chainTail (gd : GoStr) (cc : GoStr → Bool) (n : Nat)
    (hn : 1 ≤ n) (rs : List runner) :
    ∀ i b, (genLoop gd cc n i (some b) rs).1 = chainTail gd cc n i b rs := by
  induction rs with
  | nil => intro i b; rfl
  | cons r rest ih =>
    intro i b
    simp only [genLoop, chainTail]
    rw [fragmentGo_eq_pieceSpec gd cc n i r hn, ih]
    rfl

theorem genShellScript_eq_chainSpec (gd : GoStr) (cc : GoStr → Bool)
    (rs : List runner) :
    (genShellScript gd cc rs).1 = chainSpec gd cc rs := by
  cases rs with
  | nil => rfl
  | cons r rest =>
    have hn : 1 ≤ (r :: rest).length := by simp
    simp only [genShellScript, genLoop, chainSpec]
    rw [fragmentGo_eq_pieceSpec gd cc _ 0 r hn,
      genLoop_eq_chainTail gd cc _ hn rest 1 r.ignoreError]
    simp

/-- C8: for every command list, every configuration and every position, the
emitted chain consists of the per-command pieces in which the normalized
command text is wrapped in a sub-shell `( ... )` unless it is the sole first
command of the whole chain (`i = 0` and `n = 1`) or it already begins with
`(`, in exactly which cases it is emitted unwrapped (`pieceSpec`). -/
theorem c8_subshell_wrapping (gd : GoStr) (cc : GoStr → Bool) (rs : List runner) :
    (genShellScript gd cc rs).1 = chainSpec gd cc rs :=
  genShellScript_eq_chainSpec gd cc rs

/-- C2 counterexample: for the two commands `a` (error-tolerant) and `b`,
the builder emits `(a) ; (b)`: the text joining the two emitted commands is
` ; ` — a semicolon surrounded by single spaces — not `; ` as the claim
states. -/
theorem c2_counterexample :
    (genShellScript [] (fun _ => false) [⟨gs "a", true⟩, ⟨gs "b", false⟩]).1 =
      gs "(a) ; (b)" ∧
    gs "(a) ; (b)" ≠ gs "(a)" ++ gs "; " ++ gs "(b)" := by decide

/-- C2 (amended): for every sequence of two or more commands, each command
is joined to the previous one with ` ; ` (semicolon surrounded by single
spaces) when the previous command's ignore-error flag is true and with
` && ` when it is false, and a tolerant last command gets ` ; true`
appended after its text (before its closing parenthesis when wrapped), as
described by `chainSpec` with `sepSpec`. -/
theorem c2_chain_joining (gd : GoStr) (cc : GoStr → Bool) (r1 r2 : runner)
    (rest : List runner) :
    (genShellScript gd cc (r1 :: r2 :: rest)).1 = chainSpec gd cc (r1 :: r2 :: rest) :=
  genShellScript_eq_chainSpec gd cc (r1 :: r2 :: rest)

/-! ## Rule emission and the response-file threshold (ninja.go lines 217-242) -/

/-- Byte length of a Go string (`len(ss)` in Go counts UTF-8 bytes). -/
def utf8Len : GoStr → Nat
  | [] => 0
  | c :: rest => c.utf8Size + utf8Len rest

/-- The rule block written by `emitNode` for a non-empty runner list:
`rule <name>`, the description, the optional depfile line, and either the
inline command or — beyond the 100000-byte `ArgLenLimit` — the
response-file pair with the `sh $out.rsp` wrapper command. -/
def ruleLines (ruleName ss depfile : GoStr) : List GoStr :=
  [gs "rule " ++ ruleName, gs " description = build $out"]
  ++ (if depfile = [] then [] else [gs " depfile = " ++ depfile])
  ++ (if 100000 < utf8Len ss then
        [gs " rspfile = $out.rsp", gs " rspfile_content = " ++ ss,
         gs " command = sh $out.rsp"]
      else [gs " command = " ++ ss])

theorem cons_ne_cons_of_ne {a b : Char} {t u : GoStr} (h : a ≠ b) :
    a :: t ≠ b :: u := by
  intro heq
  injection heq with h1 _
  exact h h1

theorem cons_cons_ne {a : Char} {t u : GoStr} (h : t ≠ u) : a :: t ≠ a :: u := by
  intro heq
  injection heq with _ h2
  exact h h2

/-- C7: with a chain text of at most 100000 bytes the rule block carries the
inline `command = <text>` line and no response-file lines; one byte over the
threshold, the block instead carries `rspfile = $out.rsp`, the full text in
`rspfile_content`, and the wrapper command `sh $out.rsp`, with no inline
command line for the chain text. -/
theorem c7_length_threshold (ruleName ss depfile : GoStr) :
    (utf8Len ss ≤ 100000 →
      (gs " command = " ++ ss) ∈ ruleLines ruleName ss depfile ∧
      (gs " rspfile = $out.rsp") ∉ ruleLines ruleName ss depfile ∧
      (gs " rspfile_content = " ++ ss) ∉ ruleLines ruleName ss depfile) ∧
    (100000 < utf8Len ss →
      (gs " rspfile = $out.rsp") ∈ ruleLines ruleName ss depfile ∧
      (gs " rspfile_content = " ++ ss) ∈ ruleLines ruleName ss depfile ∧
      (gs " command = sh $out.rsp") ∈ ruleLines ruleName ss depfile ∧
      (gs " command = " ++ ss) ∉ ruleLines ruleName ss depfile) := by
  have hne_rule : ∀ t : GoStr, (' ' :: t : GoStr) ≠ gs "rule " ++ ruleName :=
    fun t => cons_ne_cons_of_ne (by decide)
  constructor
  · intro h
    have hif : ¬ (100000 < utf8Len ss) := not_lt.mpr h
    have n1 : gs " rspfile = $out.rsp" ≠ gs "rule " ++ ruleName := hne_rule _
    have n2 : gs " rspfile = $out.rsp" ≠ gs " description = build $out" := by decide
    have n3 : gs " rspfile = $out.rsp" ≠ gs " depfile = " ++ depfile :=
      cons_cons_ne (cons_ne_cons_of_ne (by decide))
    have n4 : gs " rspfile = $out.rsp" ≠ gs " command = " ++ ss :=
      cons_cons_ne (cons_ne_cons_of_ne (by decide))
    have m1 : gs " rspfile_content = " ++ ss ≠ gs "rule " ++ ruleName := hne_rule _
    have m2 : gs " rspfile_content = " ++ ss ≠ gs " description = build $out" :=
      cons_cons_ne (cons_ne_cons_of_ne (by decide))
    have m3 : gs " rspfile_content = " ++ ss ≠ gs " depfile = " ++ depfile :=
      cons_cons_ne (cons_ne_cons_of_ne (by decide))
    have m4 : gs " rspfile_content = " ++ ss ≠ gs " command = " ++ ss :=
      cons_cons_ne (cons_ne_cons_of_ne (by decide))
    simp only [ruleLines, if_neg hif]
    by_cases hdf : depfile = [] <;>
      simp [hdf, n1, n2, n3, n4, m1, m2, m3, m4]
  · intro h
    have hss : ss ≠ gs "sh $out.rsp" := by
      intro hcontr
      have h11 : utf8Len (gs "sh $out.rsp") = 11 := by decide
      rw [hcontr, h11] at h
      omega
    have hY : (gs " command = " ++ ss) ≠ gs " command = sh $out.rsp" := by
      intro heq
      have heq2 : gs " command = " ++ ss = gs " command = " ++ gs "sh $out.rsp" := by
        rw [heq]
        decide
      exact hss (List.append_cancel_left heq2)
    have k1 : gs " command = " ++ ss ≠ gs "rule " ++ ruleName := hne_rule _
    have k2 : gs " command = " ++ ss ≠ gs " description = build $out" :=
      cons_cons_ne (cons_ne_cons_of_ne (by decide))
    have k3 : gs " command = " ++ ss ≠ gs " depfile = " ++ depfile :=
      cons_cons_ne (cons_ne_cons_of_ne (by decide))
    have k4 : gs " command = " ++ ss ≠ gs " rspfile = $out.rsp" :=
      cons_cons_ne (cons_ne_cons_of_ne (by decide))
    have k5 : gs " command = " ++ ss ≠ gs " rspfile_content = " ++ ss :=
      cons_cons_ne (cons_ne_cons_of_ne (by decide))
    simp only [ruleLines, if_pos h]
    by_cases hdf : depfile = [] <;>
      simp [hdf, k1, k2, k3, k4, k5, hY]

/-- The 100001-byte chain text used to witness the response-file spill. -/
def bigChain : GoStr := List.replicate 100001 'a'

theorem utf8Len_replicate_a (n : Nat) : utf8Len (List.replicate n 'a') = n := by
  induction n with
  | zero => rfl
  | succ k ih =>
    have h1 : ('a').utf8Size = 1 := by decide
    simp only [List.replicate, utf8Len, ih, h1]
    omega

/-- C7 witness: the inline branch at the 5-byte chain `cat x` and the spill
branch at a 100001-byte chain. -/
theorem c7_length_threshold_witness :
    ((gs " command = " ++ gs "cat x") ∈ ruleLines (gs "rule0") (gs "cat x") [] ∧
      (gs " rspfile = $out.rsp") ∉ ruleLines (gs "rule0") (gs "cat x") [] ∧
      (gs " rspfile_content = " ++ gs "cat x") ∉ ruleLines (gs "rule0") (gs "cat x") []) ∧
    ((gs " rspfile = $out.rsp") ∈ ruleLines (gs "rule0") bigChain [] ∧
      (gs " rspfile_content = " ++ bigChain) ∈ ruleLines (gs "rule0") bigChain [] ∧
      (gs " command = sh $out.rsp") ∈ ruleLines (gs "rule0") bigChain [] ∧
      (gs " command = " ++ bigChain) ∉ ruleLines (gs "rule0") bigChain []) := by
  have hbig : 100000 < utf8Len bigChain := by
    have h1 : utf8Len bigChain = 100001 := utf8Len_replicate_a 100001
    omega
  exact ⟨(c7_length_threshold (gs "rule0") (gs "cat x") []).1 (by decide),
    (c7_length_threshold (gs "rule0") bigChain []).2 hbig⟩

/-! ## Graph traversal (ninja.go lines 174-252, 286-312) -/

/-- The fields of `DepNode` that `emitNode` reads; dependencies are recorded
as output paths, resolved against the graph's node list, so that cyclic
graphs (possible with Go pointers) are representable. -/
structure GNode where
  output : GoStr
  cmds : List GoStr
  deps : List GoStr
  isPhony : Bool
  isOrderOnly : Bool
deriving DecidableEq

/-- Generation context: the graph's node list, the executor collaborator
`createRunners` (external per the spec), the goma directory and the
abstracted compile-command matcher. -/
structure GenCtx where
  g : List GNode
  cr : GNode → List runner
  gomaDir : GoStr
  ccMatch : GoStr → Bool

/-- State threaded through a generation run: the `done` set, the rule
counter, the emitted lines, plus two specification-level records of which
outputs received a build statement and a rule block (each recorded exactly
when the corresponding text is written). -/
structure GenState where
  done : List GoStr
  ruleId : Nat
  lines : List GoStr
  builds : List GoStr
  rules : List GoStr
deriving DecidableEq

/-- Result of an emission step: normal completion, a Go `panic` (depfile
error), or fuel exhaustion of the fuelled model. -/
inductive EmitRes where
  | ok (st : GenState)
  | panic (msg : GoStr)
  | nofuel
deriving DecidableEq

/-- Placeholder for a dependency path with no node in the graph list; it
cannot arise for the closed graphs the Go code walks, where `Deps` holds
pointers to real nodes. -/
def ghost (out : GoStr) : GNode := ⟨out, [], [], false, false⟩

/-- Resolve a dependency output path to its node. -/
def findNode (g : List GNode) (out : GoStr) : GNode :=
  match g.find? (fun nd => nd.output == out) with
  | some nd => nd
  | none => ghost out

/-- `getDepString` from ninja.go: plain prerequisites then, when present,
the order-only ones after ` || `. -/
def getDepString (g : List GNode) (nd : GNode) : GoStr :=
  let deps := nd.deps.filter (fun d => !(findNode g d).isOrderOnly)
  let oo := nd.deps.filter (fun d => (findNode g d).isOrderOnly)
  (if deps = [] then [] else ' ' :: List.intercalate [' '] deps)
  ++ (if oo = [] then [] else gs " || " ++ List.intercalate [' '] oo)

/-- The `build <output>: <rule><deps>` line written by `emitBuild`. -/
def buildLine (out rule dep : GoStr) : GoStr :=
  gs "build " ++ out ++ gs ": " ++ rule ++ dep

/-- Decimal rendering of the rule counter (`fmt.Sprintf("rule%d", ...)`). -/
def natStr (n : Nat) : GoStr := (Nat.repr n).data

/-- Fuelled transcription of `emitNode`: mark the output done first, return
on already-done outputs and dangling leaves, emit the rule block (panicking
like the Go code when `getDepfile` fails) and the build statement, then
fold the recursion over the dependencies.  The Go recursion carries no
fuel; the termination theorem shows the fuel is never exhausted once it
exceeds the number of not-yet-done paths, so the fuelled function coincides
with the Go traversal. -/
def emitNodeF : Nat → GenCtx → GenState → GNode → EmitRes
  | 0, _, _, _ => .nofuel
  | fuel + 1, ctx, st, nd =>
    if nd.output ∈ st.done then .ok st
    else
      if nd.cmds = [] ∧ nd.deps = [] ∧ nd.isPhony = false then
        .ok { st with done := nd.output :: st.done }
      else
        match ctx.cr nd with
        | [] =>
          nd.deps.foldl
            (fun acc d =>
              match acc with
              | .ok s => emitNodeF fuel ctx s (findNode ctx.g d)
              | r => r)
            (.ok { st with
              done := nd.output :: st.done,
              lines := st.lines ++
                [buildLine nd.output (gs "phony") (getDepString ctx.g nd)],
              builds := nd.output :: st.builds })
        | r0 :: rs =>
          match getDepfile (genShellScript ctx.gomaDir ctx.ccMatch (r0 :: rs)).1 with
          | .error e => .panic e
          | .ok depfile =>
            nd.deps.foldl
              (fun acc d =>
                match acc with
                | .ok s => emitNodeF fuel ctx s (findNode ctx.g d)
                | r => r)
              (.ok { st with
                done := nd.output :: st.done,
                ruleId := st.ruleId + 1,
                lines := st.lines ++
                  ruleLines (gs "rule" ++ natStr st.ruleId)
                    (genShellScript ctx.gomaDir ctx.ccMatch (r0 :: rs)).1 depfile
                  ++ [buildLine nd.output (gs "rule" ++ natStr st.ruleId)
                        (getDepString ctx.g nd)]
                  ++ (if (genShellScript ctx.gomaDir ctx.ccMatch (r0 :: rs)).2 = true
                      then [gs " pool = local_pool"] else []),
                builds := nd.output :: st.builds,
                rules := nd.output :: st.rules })

/-- The dependency fold of `emitNode`, named for the proofs. -/
def emitDeps (fuel : Nat) (ctx : GenCtx) (acc : EmitRes) (ds : List GoStr) : EmitRes :=
  ds.foldl
    (fun acc d =>
      match acc with
      | .ok s => emitNodeF fuel ctx s (findNode ctx.g d)
      | r => r)
    acc

/-- The top-level fold of `generateNinja` over the graph's node list. -/
def emitAll (fuel : Nat) (ctx : GenCtx) (acc : EmitRes) (nds : List GNode) : EmitRes :=
  nds.foldl
    (fun acc nd =>
      match acc with
      | .ok s => emitNodeF fuel ctx s nd
      | r => r)
    acc

/-- All output paths mentioned by the graph: node outputs and dependency
references. -/
def allPaths (g : List GNode) : List GoStr :=
  g.map (fun nd => nd.output) ++ (g.map (fun nd => nd.deps)).flatten

/-- Fuel budget that the termination theorem proves sufficient for any
start state. -/
def genFuel (g : List GNode) : Nat := (allPaths g).length + 1

/-- The fixed prologue of `generateNinja` (pool declaration only with a
goma directory; `numCPU` stands for `runtime.NumCPU()`). -/
def headerLines (gomaDir : GoStr) (numCPU : Nat) : List GoStr :=
  [gs "# Generated by kati", []]
  ++ (if gomaDir = [] then []
      else [gs "pool local_pool", gs " depth = " ++ natStr numCPU])

/-- `generateNinja` from ninja.go: the prologue followed by `emitNode` on
every node of the graph in order. -/
def generateNinja (ctx : GenCtx) (numCPU : Nat) : EmitRes :=
  emitAll (genFuel ctx.g) ctx
    (.ok ⟨[], 0, headerLines ctx.gomaDir numCPU, [], []⟩) ctx.g

/-- Number of graph paths not yet in the done set (the termination
measure). -/
def remCount (g : List GNode) (done : List GoStr) : Nat :=
  ((allPaths g).toFinset \ done.toFinset).card

/-- Outputs recorded as having received a build statement, empty for
aborted runs. -/
def resultBuilds : EmitRes → List GoStr
  | .ok st => st.builds
  | _ => []

/-- Outputs recorded as having received a rule block, empty for aborted
runs. -/
def resultRules : EmitRes → List GoStr
  | .ok st => st.rules
  | _ => []

/-- The emission invariant: no output has two build statements or two rule
blocks, and emitted outputs are in the done set. -/
def Inv (st : GenState) : Prop :=
  st.builds.Nodup ∧ st.rules.Nodup ∧
    (∀ b ∈ st.builds, b ∈ st.done) ∧ (∀ r ∈ st.rules, r ∈ st.done)

theorem emitDeps_nil (fuel : Nat) (ctx : GenCtx) (acc : EmitRes) :
    emitDeps fuel ctx acc [] = acc := rfl

theorem emitDeps_cons_ok (fuel : Nat) (ctx : GenCtx) (st : GenState)
    (d : GoStr) (ds : List GoStr) :
    emitDeps fuel ctx (.ok st) (d :: ds) =
      emitDeps fuel ctx (emitNodeF fuel ctx st (findNode ctx.g d)) ds := rfl

theorem emitDeps_panic (fuel : Nat) (ctx : GenCtx) (e : GoStr) (ds : List GoStr) :
    emitDeps fuel ctx (.panic e) ds = .panic e := by
  induction ds with
  | nil => rfl
  | cons d ds ih => exact ih

theorem emitDeps_nofuel (fuel : Nat) (ctx : GenCtx) (ds : List GoStr) :
    emitDeps fuel ctx .nofuel ds = .nofuel := by
  induction ds with
  | nil => rfl
  | cons d ds ih => exact ih

theorem emitAll_nil (fuel : Nat) (ctx : GenCtx) (acc : EmitRes) :
    emitAll fuel ctx acc [] = acc := rfl

theorem emitAll_cons_ok (fuel : Nat) (ctx : GenCtx) (st : GenState)
    (nd : GNode) (nds : List GNode) :
    emitAll fuel ctx (.ok st) (nd :: nds) =
      emitAll fuel ctx (emitNodeF fuel ctx st nd) nds := rfl

theorem emitAll_panic (fuel : Nat) (ctx : GenCtx) (e : GoStr) (nds : List GNode) :
    emitAll fuel ctx (.panic e) nds = .panic e := by
  induction nds with
  | nil => rfl
  | cons nd nds ih => exact ih

theorem emitAll_nofuel (fuel : Nat) (ctx : GenCtx) (nds : List GNode) :
    emitAll fuel ctx .nofuel nds = .nofuel := by
  induction nds with
  | nil => rfl
  | cons nd nds ih => exact ih

/-- The state after the phony-rule branch of `emitNode` (no runners). -/
def phonyState (ctx : GenCtx) (st : GenState) (nd : GNode) : GenState :=
  { st with
    done := nd.output :: st.done,
    lines := st.lines ++ [buildLine nd.output (gs "phony") (getDepString ctx.g nd)],
    builds := nd.output :: st.builds }

/-- The state after the rule-block branch of `emitNode`. -/
def ruleState (ctx : GenCtx) (st : GenState) (nd : GNode) (rs : List runner)
    (depfile : GoStr) : GenState :=
  { st with
    done := nd.output :: st.done,
    ruleId := st.ruleId + 1,
    lines := st.lines ++
      ruleLines (gs "rule" ++ natStr st.ruleId)
        (genShellScript ctx.gomaDir ctx.ccMatch rs).1 depfile
      ++ [buildLine nd.output (gs "rule" ++ natStr st.ruleId) (getDepString ctx.g nd)]
      ++ (if (genShellScript ctx.gomaDir ctx.ccMatch rs).2 = true
          then [gs " pool = local_pool"] else []),
    builds := nd.output :: st.builds,
    rules := nd.output :: st.rules }

theorem emitNodeF_done (fuel : Nat) (ctx : GenCtx) (st : GenState) (nd : GNode)
    (h : nd.output ∈ st.done) : emitNodeF (fuel + 1) ctx st nd = .ok st := by
  simp only [emitNodeF, if_pos h]

theorem emitNodeF_dangling (fuel : Nat) (ctx : GenCtx) (st : GenState) (nd : GNode)
    (h1 : nd.output ∉ st.done)
    (h2 : nd.cmds = [] ∧ nd.deps = [] ∧ nd.isPhony = false) :
    emitNodeF (fuel + 1) ctx st nd = .ok { st with done := nd.output :: st.done } := by
  simp only [emitNodeF, if_neg h1, if_pos h2]

theorem emitNodeF_phony (fuel : Nat) (ctx : GenCtx) (st : GenState) (nd : GNode)
    (h1 : nd.output ∉ st.done)
    (h2 : ¬(nd.cmds = [] ∧ nd.deps = [] ∧ nd.isPhony = false))
    (hcr : ctx.cr nd = []) :
    emitNodeF (fuel + 1) ctx st nd =
      emitDeps fuel ctx (.ok (phonyState ctx st nd)) nd.deps := by
  simp only [emitNodeF, if_neg h1, if_neg h2, hcr]
  rfl

theorem emitNodeF_ruleblock (fuel : Nat) (ctx : GenCtx) (st : GenState) (nd : GNode)
    (r0 : runner) (rs : List runner) (depfile : GoStr)
    (h1 : nd.output ∉ st.done)
    (h2 : ¬(nd.cmds = [] ∧ nd.deps = [] ∧ nd.isPhony = false))
    (hcr : ctx.cr nd = r0 :: rs)
    (hdf : getDepfile (genShellScript ctx.gomaDir ctx.ccMatch (r0 :: rs)).1 =
      .ok depfile) :
    emitNodeF (fuel + 1) ctx st nd =
      emitDeps fuel ctx (.ok (ruleState ctx st nd (r0 :: rs) depfile)) nd.deps := by
  simp only [emitNodeF, if_neg h1, if_neg h2, hcr, hdf]
  rfl

theorem emitNodeF_paniceq (fuel : Nat) (ctx : GenCtx) (st : GenState) (nd : GNode)
    (r0 : runner) (rs : List runner) (e : GoStr)
    (h1 : nd.output ∉ st.done)
    (h2 : ¬(nd.cmds = [] ∧ nd.deps = [] ∧ nd.isPhony = false))
    (hcr : ctx.cr nd = r0 :: rs)
    (hdf : getDepfile (genShellScript ctx.gomaDir ctx.ccMatch (r0 :: rs)).1 =
      .error e) :
    emitNodeF (fuel + 1) ctx st nd = .panic e := by
  simp only [emitNodeF, if_neg h1, if_neg h2, hcr, hdf]

theorem findNode_spec (g : List GNode) (d : GoStr) :
    (findNode g d ∈ g ∧ (findNode g d).output = d) ∨ findNode g d = ghost d := by
  unfold findNode
  cases hf : g.find? (fun nd => nd.output == d) with
  | none => exact Or.inr rfl
  | some nd =>
    refine Or.inl ⟨List.mem_of_find?_eq_some hf, ?_⟩
    have := List.find?_some hf
    simpa using this

theorem emitNodeF_ghost (fuel : Nat) (ctx : GenCtx) (st : GenState) (out : GoStr)
    (hf : 0 < fuel) :
    ∃ st2, emitNodeF fuel ctx st (ghost out) = .ok st2 ∧ st.done ⊆ st2.done := by
  cases fuel with
  | zero => omega
  | succ f =>
    by_cases hdone : out ∈ st.done
    · exact ⟨st, emitNodeF_done f ctx st (ghost out) hdone, List.Subset.refl _⟩
    · refine ⟨{ st with done := out :: st.done },
        emitNodeF_dangling f ctx st (ghost out) hdone ⟨rfl, rfl, rfl⟩, ?_⟩
      exact List.subset_cons_self _ _

theorem Inv_cons_done (st : GenState) (out : GoStr) (hi : Inv st) :
    Inv { st with done := out :: st.done } :=
  ⟨hi.1, hi.2.1, fun b hb => List.mem_cons_of_mem _ (hi.2.2.1 b hb),
    fun r hr => List.mem_cons_of_mem _ (hi.2.2.2 r hr)⟩

theorem Inv_phonyState (ctx : GenCtx) (st : GenState) (nd : GNode)
    (hdone : nd.output ∉ st.done) (hi : Inv st) : Inv (phonyState ctx st nd) := by
  have hnb : nd.output ∉ st.builds := fun hmem => hdone (hi.2.2.1 _ hmem)
  refine ⟨List.nodup_cons.mpr ⟨hnb, hi.1⟩, hi.2.1, ?_, ?_⟩
  · intro b hb
    rcases List.mem_cons.mp hb with hb | hb
    · subst hb; exact List.mem_cons_self _ _
    · exact List.mem_cons_of_mem _ (hi.2.2.1 b hb)
  · intro r hr
    exact List.mem_cons_of_mem _ (hi.2.2.2 r hr)

theorem Inv_ruleState (ctx : GenCtx) (st : GenState) (nd : GNode) (rs : List runner)
    (depfile : GoStr) (hdone : nd.output ∉ st.done) (hi : Inv st) :
    Inv (ruleState ctx st nd rs depfile) := by
  have hnb : nd.output ∉ st.builds := fun hmem => hdone (hi.2.2.1 _ hmem)
  have hnr : nd.output ∉ st.rules := fun hmem => hdone (hi.2.2.2 _ hmem)
  refine ⟨List.nodup_cons.mpr ⟨hnb, hi.1⟩, List.nodup_cons.mpr ⟨hnr, hi.2.1⟩, ?_, ?_⟩
  · intro b hb
    rcases List.mem_cons.mp hb with hb | hb
    · subst hb; exact List.mem_cons_self _ _
    · exact List.mem_cons_of_mem _ (hi.2.2.1 b hb)
  · intro r hr
    rcases List.mem_cons.mp hr with hr | hr
    · subst hr; exact List.mem_cons_self _ _
    · exact List.mem_cons_of_mem _ (hi.2.2.2 r hr)

theorem emitNodeF_ok_mono_inv :
    ∀ (fuel : Nat) (ctx : GenCtx) (st : GenState) (nd : GNode) (st' : GenState),
      emitNodeF fuel ctx st nd = .ok st' →
      st.done ⊆ st'.done ∧ (Inv st → Inv st') := by
  intro fuel
  induction fuel with
  | zero =>
    intro ctx st nd st' h
    simp [emitNodeF] at h
  | succ f ih =>
    have hdeps : ∀ (ctx : GenCtx) (ds : List GoStr) (st st' : GenState),
        emitDeps f ctx (.ok st) ds = .ok st' →
        st.done ⊆ st'.done ∧ (Inv st → Inv st') := by
      intro ctx ds
      induction ds with
      | nil =>
        intro st st' h
        rw [emitDeps_nil] at h
        cases h
        exact ⟨List.Subset.refl _, id⟩
      | cons d ds ihd =>
        intro st st' h
        rw [emitDeps_cons_ok] at h
        cases hstep : emitNodeF f ctx st (findNode ctx.g d) with
        | ok s1 =>
          rw [hstep] at h
          obtain ⟨ha, hb⟩ := ih ctx st (findNode ctx.g d) s1 hstep
          obtain ⟨hc, hd2⟩ := ihd s1 st' h
          exact ⟨ha.trans hc, fun hi => hd2 (hb hi)⟩
        | panic e => rw [hstep, emitDeps_panic] at h; cases h
        | nofuel => rw [hstep, emitDeps_nofuel] at h; cases h
    intro ctx st nd st' h
    by_cases hdone : nd.output ∈ st.done
    · rw [emitNodeF_done f ctx st nd hdone] at h
      cases h
      exact ⟨List.Subset.refl _, id⟩
    · by_cases hdang : nd.cmds = [] ∧ nd.deps = [] ∧ nd.isPhony = false
      · rw [emitNodeF_dangling f ctx st nd hdone hdang] at h
        cases h
        exact ⟨List.subset_cons_self _ _, Inv_cons_done st nd.output⟩
      · cases hcr : ctx.cr nd with
        | nil =>
          rw [emitNodeF_phony f ctx st nd hdone hdang hcr] at h
          obtain ⟨ha, hb⟩ := hdeps ctx nd.deps (phonyState ctx st nd) st' h
          refine ⟨(List.subset_cons_self _ _).trans ha, fun hi => hb ?_⟩
          exact Inv_phonyState ctx st nd hdone hi
        | cons r0 rs =>
          cases hdf : getDepfile (genShellScript ctx.gomaDir ctx.ccMatch (r0 :: rs)).1 with
          | error e =>
            rw [emitNodeF_paniceq f ctx st nd r0 rs e hdone hdang hcr hdf] at h
            cases h
          | ok depfile =>
            rw [emitNodeF_ruleblock f ctx st nd r0 rs depfile hdone hdang hcr hdf] at h
            obtain ⟨ha, hb⟩ :=
              hdeps ctx nd.deps (ruleState ctx st nd (r0 :: rs) depfile) st' h
            refine ⟨(List.subset_cons_self _ _).trans ha, fun hi => hb ?_⟩
            exact Inv_ruleState ctx st nd (r0 :: rs) depfile hdone hi

theorem remCount_mono (g : List GNode) {d1 d2 : List GoStr} (h : d1 ⊆ d2) :
    remCount g d2 ≤ remCount g d1 := by
  apply Finset.card_le_card
  apply Finset.sdiff_subset_sdiff (Finset.Subset.refl _)
  intro x hx
  rw [List.mem_toFinset] at hx ⊢
  exact h hx

theorem remCount_strict (g : List GNode) (done : List GoStr) (out : GoStr)
    (hmem : out ∈ allPaths g) (hnot : out ∉ done) :
    remCount g (out :: done) < remCount g done := by
  have hsub : (allPaths g).toFinset \ (out :: done).toFinset ⊆
      (allPaths g).toFinset \ done.toFinset := by
    apply Finset.sdiff_subset_sdiff (Finset.Subset.refl _)
    intro x hx
    rw [List.mem_toFinset] at hx ⊢
    exact List.mem_cons_of_mem _ hx
  apply Finset.card_lt_card
  rw [Finset.ssubset_iff_of_subset hsub]
  refine ⟨out, ?_, ?_⟩
  · rw [Finset.mem_sdiff, List.mem_toFinset, List.mem_toFinset]
    exact ⟨hmem, hnot⟩
  · rw [Finset.mem_sdiff]
    intro hcontr
    exact hcontr.2 (by rw [List.mem_toFinset]; exact List.mem_cons_self _ _)

theorem remCount_le (g : List GNode) (done : List GoStr) :
    remCount g done ≤ (allPaths g).length :=
  le_trans (Finset.card_le_card Finset.sdiff_subset) (List.toFinset_card_le _)

theorem emitNodeF_enough_fuel :
    ∀ (fuel : Nat) (ctx : GenCtx) (st : GenState) (nd : GNode),
      nd ∈ ctx.g → remCount ctx.g st.done < fuel →
      emitNodeF fuel ctx st nd ≠ .nofuel := by
  intro fuel
  induction fuel with
  | zero => intro ctx st nd _ habs; omega
  | succ f ih =>
    have hdeps : ∀ (ctx : GenCtx) (ds : List GoStr),
        (∀ d ∈ ds, d ∈ allPaths ctx.g) →
        ∀ st : GenState, remCount ctx.g st.done < f →
        emitDeps f ctx (.ok st) ds ≠ .nofuel := by
      intro ctx ds
      induction ds with
      | nil =>
        intro _ st _
        rw [emitDeps_nil]
        exact fun hc => EmitRes.noConfusion hc
      | cons d ds ihd =>
        intro hall st hrem
        rw [emitDeps_cons_ok]
        rcases findNode_spec ctx.g d with ⟨hmem, _⟩ | hghost
        · cases hstep : emitNodeF f ctx st (findNode ctx.g d) with
          | ok s1 =>
            have hmono := (emitNodeF_ok_mono_inv f ctx st _ s1 hstep).1
            have hle : remCount ctx.g s1.done ≤ remCount ctx.g st.done :=
              remCount_mono _ hmono
            exact ihd (fun x hx => hall x (List.mem_cons_of_mem _ hx)) s1 (by omega)
          | panic e =>
            rw [emitDeps_panic]
            exact fun hc => EmitRes.noConfusion hc
          | nofuel => exact absurd hstep (ih ctx st _ hmem hrem)
        · obtain ⟨st2, hg, hsub⟩ := emitNodeF_ghost f ctx st d (by omega)
          rw [hghost, hg]
          have hle : remCount ctx.g st2.done ≤ remCount ctx.g st.done :=
            remCount_mono _ hsub
          exact ihd (fun x hx => hall x (List.mem_cons_of_mem _ hx)) st2 (by omega)
    intro ctx st nd hmem hrem
    by_cases hdone : nd.output ∈ st.done
    · rw [emitNodeF_done f ctx st nd hdone]
      exact fun hc => EmitRes.noConfusion hc
    · by_cases hdang : nd.cmds = [] ∧ nd.deps = [] ∧ nd.isPhony = false
      · rw [emitNodeF_dangling f ctx st nd hdone hdang]
        exact fun hc => EmitRes.noConfusion hc
      · have houtmem : nd.output ∈ allPaths ctx.g := by
          unfold allPaths
          exact List.mem_append_left _ (List.mem_map.mpr ⟨nd, hmem, rfl⟩)
        have hstrict := remCount_strict ctx.g st.done nd.output houtmem hdone
        have hdmem : ∀ d ∈ nd.deps, d ∈ allPaths ctx.g := by
          intro d hd
          unfold allPaths
          refine List.mem_append_right _ ?_
          rw [List.mem_flatten]
          exact ⟨nd.deps, List.mem_map.mpr ⟨nd, hmem, rfl⟩, hd⟩
        cases hcr : ctx.cr nd with
        | nil =>
          rw [emitNodeF_phony f ctx st nd hdone hdang hcr]
          exact hdeps ctx nd.deps hdmem (phonyState ctx st nd) (by
            show remCount ctx.g (nd.output :: st.done) < f
            omega)
        | cons r0 rs =>
          cases hdf : getDepfile (genShellScript ctx.gomaDir ctx.ccMatch (r0 :: rs)).1 with
          | error e =>
            rw [emitNodeF_paniceq f ctx st nd r0 rs e hdone hdang hcr hdf]
            exact fun hc => EmitRes.noConfusion hc
          | ok depfile =>
            rw [emitNodeF_ruleblock f ctx st nd r0 rs depfile hdone hdang hcr hdf]
            exact hdeps ctx nd.deps hdmem (ruleState ctx st nd (r0 :: rs) depfile) (by
              show remCount ctx.g (nd.output :: st.done) < f
              omega)

theorem emitAll_enough_fuel (ctx : GenCtx) :
    ∀ nds : List GNode, (∀ nd ∈ nds, nd ∈ ctx.g) →
      ∀ st : GenState, emitAll (genFuel ctx.g) ctx (.ok st) nds ≠ .nofuel := by
  intro nds
  induction nds with
  | nil =>
    intro _ st
    rw [emitAll_nil]
    exact fun hc => EmitRes.noConfusion hc
  | cons nd nds ihn =>
    intro hall st
    rw [emitAll_cons_ok]
    have hfuel : remCount ctx.g st.done < genFuel ctx.g := by
      have := remCount_le ctx.g st.done
      unfold genFuel
      omega
    cases hstep : emitNodeF (genFuel ctx.g) ctx st nd with
    | ok s1 => exact ihn (fun x hx => hall x (List.mem_cons_of_mem _ hx)) s1
    | panic e =>
      rw [emitAll_panic]
      exact fun hc => EmitRes.noConfusion hc
    | nofuel =>
      exact absurd hstep
        (emitNodeF_enough_fuel _ ctx st nd (hall nd (List.mem_cons_self _ _)) hfuel)

theorem emitAll_ok_inv (fuel : Nat) (ctx : GenCtx) :
    ∀ (nds : List GNode) (st st' : GenState),
      emitAll fuel ctx (.ok st) nds = .ok st' → Inv st → Inv st' := by
  intro nds
  induction nds with
  | nil =>
    intro st st' h hi
    rw [emitAll_nil] at h
    cases h
    exact hi
  | cons nd nds ihn =>
    intro st st' h hi
    rw [emitAll_cons_ok] at h
    cases hstep : emitNodeF fuel ctx st nd with
    | ok s1 =>
      rw [hstep] at h
      exact ihn s1 st' h ((emitNodeF_ok_mono_inv fuel ctx st nd s1 hstep).2 hi)
    | panic e => rw [hstep, emitAll_panic] at h; cases h
    | nofuel => rw [hstep, emitAll_nofuel] at h; cases h

/-- C10: `emitNode` marks a node's output done before recursing into its
dependency edges, so on every finite graph — cyclic ones included, since
dependencies are arbitrary path references here — the traversal terminates:
the generation entry point never exhausts its fuel budget, and `emitNodeF`
completes whenever its fuel exceeds the number of paths not yet done. -/
theorem c10_termination :
    (∀ (ctx : GenCtx) (numCPU : Nat), generateNinja ctx numCPU ≠ .nofuel) ∧
    (∀ (fuel : Nat) (ctx : GenCtx) (st : GenState) (nd : GNode),
      nd ∈ ctx.g → remCount ctx.g st.done < fuel →
      emitNodeF fuel ctx st nd ≠ .nofuel) := by
  constructor
  · intro ctx numCPU
    exact emitAll_enough_fuel ctx ctx.g (fun _ h => h) _
  · exact emitNodeF_enough_fuel

/-- A two-node cyclic graph (`a` depends on `b`, `b` on `a`), used to
witness termination and visited-set behaviour on cycles. -/
def cycCtx : GenCtx :=
  ⟨[⟨gs "a", [], [gs "b"], true, false⟩, ⟨gs "b", [], [gs "a"], true, false⟩],
    fun _ => [], [], fun _ => false⟩

/-- C10 witness: on the concrete cyclic two-node graph, `emitNodeF` with
fuel 5 (exceeding the remaining-path measure) does not run out of fuel. -/
theorem c10_termination_witness :
    emitNodeF 5 cycCtx ⟨[], 0, [], [], []⟩ ⟨gs "a", [], [gs "b"], true, false⟩ ≠
      .nofuel :=
  c10_termination.2 5 cycCtx ⟨[], 0, [], [], []⟩ ⟨gs "a", [], [gs "b"], true, false⟩
    (by decide) (by decide)

/-- C1: a generation run emits at most one build statement and at most one
rule block per distinct output path (the records of emitted outputs are
duplicate-free, diamond sharing included), and once a node's output is in
the visited set `emitNode` on it is a no-op returning the state unchanged. -/
theorem c1_emit_once :
    (∀ (ctx : GenCtx) (numCPU : Nat),
      (resultBuilds (generateNinja ctx numCPU)).Nodup ∧
      (resultRules (generateNinja ctx numCPU)).Nodup) ∧
    (∀ (fuel : Nat) (ctx : GenCtx) (st : GenState) (nd : GNode),
      nd.output ∈ st.done → emitNodeF (fuel + 1) ctx st nd = .ok st) := by
  constructor
  · intro ctx numCPU
    cases hres : generateNinja ctx numCPU with
    | ok st' =>
      have hinv : Inv st' :=
        emitAll_ok_inv (genFuel ctx.g) ctx ctx.g
          ⟨[], 0, headerLines ctx.gomaDir numCPU, [], []⟩ st' hres
          ⟨List.nodup_nil, List.nodup_nil, by simp, by simp⟩
      exact ⟨by simpa [resultBuilds] using hinv.1,
        by simpa [resultRules] using hinv.2.1⟩
    | panic e => simp [resultBuilds, resultRules]
    | nofuel => simp [resultBuilds, resultRules]
  · exact fun fuel ctx st nd h => emitNodeF_done fuel ctx st nd h

/-- C1 witness: on the cyclic graph, calling `emitNodeF` on node `a` when
its output is already in the visited set returns the state unchanged. -/
theorem c1_emit_once_witness :
    emitNodeF 1 cycCtx ⟨[gs "a"], 0, [], [], []⟩ ⟨gs "a", [], [gs "b"], true, false⟩ =
      .ok ⟨[gs "a"], 0, [], [], []⟩ :=
  c1_emit_once.2 0 cycCtx ⟨[gs "a"], 0, [], [], []⟩ ⟨gs "a", [], [gs "b"], true, false⟩
    (by decide)

/-- C5 (amended): for commands that request dependency tracking and are not
the llvm-rs-cc special case, the resolver errors exactly when the
whitespace-trimmed remainder after the first ` -MF ` contains another
` -MF `, or no ` -MF ` occurs and either no ` -o ` occurs or the trimmed
remainder after the first ` -o ` contains another ` -o ` (`depfileErrCond`;
the second-occurrence tests apply to the trimmed remainder, not to raw
occurrence counts); and such an error aborts the whole generation: the
emission of any node whose chain text makes the resolver fail is a Go
panic. -/
theorem c5_error_conditions :
    (∀ ss : GoStr, hasDepFlags ss = true →
      containsSub ss (gs "bin/llvm-rs-cc ") = false →
      errOf (getDepfile ss) = depfileErrCond ss) ∧
    (∀ (fuel : Nat) (ctx : GenCtx) (st : GenState) (nd : GNode)
      (r0 : runner) (rs : List runner) (e : GoStr),
      nd.output ∉ st.done →
      ¬(nd.cmds = [] ∧ nd.deps = [] ∧ nd.isPhony = false) →
      ctx.cr nd = r0 :: rs →
      getDepfile (genShellScript ctx.gomaDir ctx.ccMatch (r0 :: rs)).1 = .error e →
      emitNodeF (fuel + 1) ctx st nd = .panic e) := by
  constructor
  · intro ss hdep hllvm
    rw [getDepfile_err ss hllvm, getDepfileImpl_err ss hdep]
  · intro fuel ctx st nd r0 rs e h1 h2 hcr hdf
    exact emitNodeF_paniceq fuel ctx st nd r0 rs e h1 h2 hcr hdf

/-- A one-node graph whose single command lacks the `-o` flag while
requesting dependency tracking, so depfile resolution fails. -/
def errCtx : GenCtx :=
  ⟨[⟨gs "t", [gs "x -MD"], [], false, false⟩],
    fun _ => [⟨gs "x -MD", false⟩], [], fun _ => false⟩

/-- C5 witness: the error characterisation applied at the double-`-MF`
command `a -MD -MF x -MF y`, and the abort conjunct applied at the concrete
node whose chain `x -MD` has no `-o` flag, which panics the emission. -/
theorem c5_error_conditions_witness :
    errOf (getDepfile (gs "a -MD -MF x -MF y")) =
      depfileErrCond (gs "a -MD -MF x -MF y") ∧
    emitNodeF 1 errCtx ⟨[], 0, [], [], []⟩ ⟨gs "t", [gs "x -MD"], [], false, false⟩ =
      .panic (gs "Cannot find the depfile in x -MD") :=
  ⟨c5_error_conditions.1 (gs "a -MD -MF x -MF y") (by decide) (by decide),
   c5_error_conditions.2 0 errCtx ⟨[], 0, [], [], []⟩
     ⟨gs "t", [gs "x -MD"], [], false, false⟩ ⟨gs "x -MD", false⟩ []
     (gs "Cannot find the depfile in x -MD")
     (by decide) (by decide) (by decide) (by decide)⟩

/-! ## Launcher script (ninja.go lines 254-284) -/

/-- The `export <name>=<value>` line of `generateShell`. -/
def exportLine (ev : GoStr → GoStr) (name : GoStr) : GoStr :=
  gs "export " ++ name ++ '=' :: ev name

/-- The `unset <name>` line of `generateShell`. -/
def unsetLine (name : GoStr) : GoStr := gs "unset " ++ name

/-- `generateShell` from ninja.go, as the list of lines it writes: the
shebang (defaulting to `/bin/sh` when `SHELL` evaluates empty), one export
or unset line per tracked variable, and the `exec ninja` line (`-j300` when
goma is configured).  The lazy evaluator is the parameter `ev` and the Go
map of exports is an association list. -/
def generateShell (ev : GoStr → GoStr) (exports : List (GoStr × Bool))
    (gomaDir : GoStr) : List GoStr :=
  (gs "#!" ++ (if ev (gs "SHELL") = [] then gs "/bin/sh" else ev (gs "SHELL")))
  :: (exports.map (fun p => if p.2 then exportLine ev p.1 else unsetLine p.1))
  ++ [if gomaDir = [] then gs "exec ninja" else gs "exec ninja -j300"]

theorem eq_append_eq_split : ∀ a c b d : GoStr, '=' ∉ a → '=' ∉ c →
    a ++ '=' :: b = c ++ '=' :: d → a = c ∧ b = d := by
  intro a
  induction a with
  | nil =>
    intro c b d _ hc h
    cases c with
    | nil => simpa using h
    | cons x xs =>
      exfalso
      simp only [List.nil_append, List.cons_append, List.cons.injEq] at h
      apply hc
      rw [← h.1]
      exact List.mem_cons_self _ _
  | cons x xs ih =>
    intro c b d hx hc h
    cases c with
    | nil =>
      exfalso
      simp only [List.cons_append, List.nil_append, List.cons.injEq] at h
      apply hx
      rw [h.1]
      exact List.mem_cons_self _ _
    | cons y ys =>
      simp only [List.cons_append, List.cons.injEq] at h
      obtain ⟨h1, h2⟩ := h
      have hx' : '=' ∉ xs := fun hm => hx (List.mem_cons_of_mem _ hm)
      have hc' : '=' ∉ ys := fun hm => hc (List.mem_cons_of_mem _ hm)
      obtain ⟨ha, hb⟩ := ih ys b d hx' hc' h2
      exact ⟨by rw [h1, ha], hb⟩

theorem exportLine_inj (ev : GoStr → GoStr) (a b : GoStr) (ha : '=' ∉ a)
    (hb : '=' ∉ b) (h : exportLine ev a = exportLine ev b) : a = b := by
  simp only [exportLine] at h
  rw [List.append_assoc, List.append_assoc] at h
  exact (eq_append_eq_split a b _ _ ha hb (List.append_cancel_left h)).1

theorem unsetLine_inj (a b : GoStr) (h : unsetLine a = unsetLine b) : a = b := by
  simp only [unsetLine] at h
  exact List.append_cancel_left h

theorem count_lines_map (ev : GoStr → GoStr) (name : GoStr) (hname : '=' ∉ name) :
    ∀ l : List (GoStr × Bool), (∀ p ∈ l, '=' ∉ p.1) →
      ((l.map (fun p => if p.2 then exportLine ev p.1 else unsetLine p.1)).count
          (exportLine ev name) =
        l.countP (fun p => p.1 == name && p.2)) ∧
      ((l.map (fun p => if p.2 then exportLine ev p.1 else unsetLine p.1)).count
          (unsetLine name) =
        l.countP (fun p => p.1 == name && !p.2)) := by
  intro l
  induction l with
  | nil => intro _; exact ⟨rfl, rfl⟩
  | cons p ps ih =>
    intro hno
    have hp : '=' ∉ p.1 := hno p (List.mem_cons_self _ _)
    obtain ⟨ih1, ih2⟩ := ih (fun q hq => hno q (List.mem_cons_of_mem _ hq))
    have hEU : ∀ x y : GoStr, exportLine ev x ≠ unsetLine y :=
      fun x y => cons_ne_cons_of_ne (by decide)
    have hUE : ∀ x y : GoStr, unsetLine x ≠ exportLine ev y :=
      fun x y => cons_ne_cons_of_ne (by decide)
    constructor
    · rw [List.map_cons, List.count_cons, List.countP_cons, ih1]
      congr 1
      cases hb : p.2 with
      | true =>
        by_cases heq : p.1 = name
        · simp [heq, beq_iff_eq]
        · have hne : ¬ exportLine ev p.1 = exportLine ev name :=
            fun h => heq (exportLine_inj ev p.1 name hp hname h)
          simp [heq, hne, beq_iff_eq]
      | false =>
        simp [hUE p.1 name, beq_iff_eq]
    · rw [List.map_cons, List.count_cons, List.countP_cons, ih2]
      congr 1
      cases hb : p.2 with
      | true =>
        simp [hEU p.1 name, beq_iff_eq]
      | false =>
        by_cases heq : p.1 = name
        · simp [heq, beq_iff_eq]
        · have hne : ¬ unsetLine p.1 = unsetLine name :=
            fun h => heq (unsetLine_inj p.1 name h)
          simp [heq, hne, beq_iff_eq]

theorem countP_keys (name : GoStr) :
    ∀ l : List (GoStr × Bool), (l.map Prod.fst).Nodup →
      (((name, true) ∈ l → l.countP (fun p => p.1 == name && p.2) = 1 ∧
          l.countP (fun p => p.1 == name && !p.2) = 0) ∧
       (((name, false) ∈ l → l.countP (fun p => p.1 == name && !p.2) = 1 ∧
          l.countP (fun p => p.1 == name && p.2) = 0)) ∧
       (name ∉ l.map Prod.fst → l.countP (fun p => p.1 == name && p.2) = 0 ∧
          l.countP (fun p => p.1 == name && !p.2) = 0)) := by
  intro l
  induction l with
  | nil => intro _; exact ⟨by simp, by simp, fun _ => ⟨rfl, rfl⟩⟩
  | cons p ps ih =>
    intro hnd
    rw [List.map_cons, List.nodup_cons] at hnd
    obtain ⟨hpnot, hnd'⟩ := hnd
    obtain ⟨ih1, ih2, ih3⟩ := ih hnd'
    have hzero : ∀ q ∈ ps, q.1 = p.1 → False := by
      intro q hq hq1
      exact hpnot (hq1 ▸ List.mem_map.mpr ⟨q, hq, rfl⟩)
    refine ⟨?_, ?_, ?_⟩
    · intro hmem
      rcases List.mem_cons.mp hmem with heq | hmem'
      · have hpeq : p = (name, true) := heq.symm
        subst hpeq
        have hps : name ∉ ps.map Prod.fst := hpnot
        obtain ⟨hz1, hz2⟩ := ih3 hps
        rw [List.countP_cons, List.countP_cons, hz1, hz2]
        simp
      · have hne : p.1 ≠ name := by
          intro hcontr
          exact hzero (name, true) hmem' (by rw [hcontr])
        obtain ⟨h1, h2⟩ := ih1 hmem'
        rw [List.countP_cons, List.countP_cons, h1, h2]
        simp [hne]
    · intro hmem
      rcases List.mem_cons.mp hmem with heq | hmem'
      · have hpeq : p = (name, false) := heq.symm
        subst hpeq
        have hps : name ∉ ps.map Prod.fst := hpnot
        obtain ⟨hz1, hz2⟩ := ih3 hps
        rw [List.countP_cons, List.countP_cons, hz1, hz2]
        simp
      · have hne : p.1 ≠ name := by
          intro hcontr
          exact hzero (name, false) hmem' (by rw [hcontr])
        obtain ⟨h1, h2⟩ := ih2 hmem'
        rw [List.countP_cons, List.countP_cons, h1, h2]
        simp [hne]
    · intro hmem
      rw [List.map_cons] at hmem
      have hne : p.1 ≠ name := by
        intro hcontr
        apply hmem
        rw [← hcontr]
        exact List.mem_cons_self _ _
      have hps : name ∉ ps.map Prod.fst :=
        fun hcontr => hmem (List.mem_cons_of_mem _ hcontr)
      obtain ⟨hz1, hz2⟩ := ih3 hps
      rw [List.countP_cons, List.countP_cons, hz1, hz2]
      simp [hne]

/-- C9: every variable present in the Exports mapping produces exactly one
line in the launcher script — an export line carrying the variable's
evaluated text when its flag is true, an unset line when it is false — and
no variable outside the mapping gets an export or unset line.  Variable
names are the keys of a Go map, hence duplicate-free, and environment
variable names do not contain `=`. -/
theorem c9_env_fidelity (ev : GoStr → GoStr) (exports : List (GoStr × Bool))
    (gomaDir : GoStr) (name : GoStr)
    (hkeys : (exports.map Prod.fst).Nodup)
    (hnoeq : ∀ p ∈ exports, '=' ∉ p.1)
    (hname : '=' ∉ name) :
    ((name, true) ∈ exports →
      (generateShell ev exports gomaDir).count (exportLine ev name) = 1 ∧
      (generateShell ev exports gomaDir).count (unsetLine name) = 0) ∧
    ((name, false) ∈ exports →
      (generateShell ev exports gomaDir).count (unsetLine name) = 1 ∧
      (generateShell ev exports gomaDir).count (exportLine ev name) = 0) ∧
    (name ∉ exports.map Prod.fst →
      (generateShell ev exports gomaDir).count (exportLine ev name) = 0 ∧
      (generateShell ev exports gomaDir).count (unsetLine name) = 0) := by
  have hcl := count_lines_map ev name hname exports hnoeq
  have hkp := countP_keys name exports hkeys
  have hsheb_exp :
      ¬ (gs "#!" ++ (if ev (gs "SHELL") = [] then gs "/bin/sh" else ev (gs "SHELL"))) =
        exportLine ev name :=
    cons_ne_cons_of_ne (by decide)
  have hsheb_uns :
      ¬ (gs "#!" ++ (if ev (gs "SHELL") = [] then gs "/bin/sh" else ev (gs "SHELL"))) =
        unsetLine name :=
    cons_ne_cons_of_ne (by decide)
  have hexec_exp :
      ¬ (if gomaDir = [] then gs "exec ninja" else gs "exec ninja -j300") =
        exportLine ev name := by
    by_cases hg : gomaDir = []
    · rw [if_pos hg]
      exact cons_cons_ne (cons_cons_ne (cons_ne_cons_of_ne (by decide)))
    · rw [if_neg hg]
      exact cons_cons_ne (cons_cons_ne (cons_ne_cons_of_ne (by decide)))
  have hexec_uns :
      ¬ (if gomaDir = [] then gs "exec ninja" else gs "exec ninja -j300") =
        unsetLine name := by
    by_cases hg : gomaDir = []
    · rw [if_pos hg]
      exact cons_ne_cons_of_ne (by decide)
    · rw [if_neg hg]
      exact cons_ne_cons_of_ne (by decide)
  have htot_exp : (generateShell ev exports gomaDir).count (exportLine ev name) =
      exports.countP (fun p => p.1 == name && p.2) := by
    unfold generateShell
    rw [List.count_append, List.count_cons]
    simp [hsheb_exp, hexec_exp, hcl.1, List.count_cons]
  have htot_uns : (generateShell ev exports gomaDir).count (unsetLine name) =
      exports.countP (fun p => p.1 == name && !p.2) := by
    unfold generateShell
    rw [List.count_append, List.count_cons]
    simp [hsheb_uns, hexec_uns, hcl.2, List.count_cons]
  refine ⟨fun hmem => ?_, fun hmem => ?_, fun hmem => ?_⟩
  · obtain ⟨h1, h2⟩ := hkp.1 hmem
    exact ⟨by rw [htot_exp, h1], by rw [htot_uns, h2]⟩
  · obtain ⟨h1, h2⟩ := hkp.2.1 hmem
    exact ⟨by rw [htot_uns, h1], by rw [htot_exp, h2]⟩
  · obtain ⟨h1, h2⟩ := hkp.2.2 hmem
    exact ⟨by rw [htot_exp, h1], by rw [htot_uns, h2]⟩

/-- C9 witness: the fidelity statement applied to the concrete mapping
`A ↦ true, B ↦ false` with constant evaluator: `A`'s export line appears
once with no unset line, `B`'s unset line appears once with no export line,
and the absent variable `C` gets neither. -/
theorem c9_env_fidelity_witness :
    ((generateShell (fun _ => gs "v") [(gs "A", true), (gs "B", false)] []).count
        (exportLine (fun _ => gs "v") (gs "A")) = 1 ∧
      (generateShell (fun _ => gs "v") [(gs "A", true), (gs "B", false)] []).count
        (unsetLine (gs "A")) = 0) ∧
    ((generateShell (fun _ => gs "v") [(gs "A", true), (gs "B", false)] []).count
        (unsetLine (gs "B")) = 1 ∧
      (generateShell (fun _ => gs "v") [(gs "A", true), (gs "B", false)] []).count
        (exportLine (fun _ => gs "v") (gs "B")) = 0) ∧
    ((generateShell (fun _ => gs "v") [(gs "A", true), (gs "B", false)] []).count
        (exportLine (fun _ => gs "v") (gs "C")) = 0 ∧
      (generateShell (fun _ => gs "v") [(gs "A", true), (gs "B", false)] []).count
        (unsetLine (gs "C")) = 0) :=
  ⟨(c9_env_fidelity (fun _ => gs "v") [(gs "A", true), (gs "B", false)] []
      (gs "A") (by decide) (by decide) (by decide)).1 (by decide),
   (c9_env_fidelity (fun _ => gs "v") [(gs "A", true), (gs "B", false)] []
      (gs "B") (by decide) (by decide) (by decide)).2.1 (by decide),
   (c9_env_fidelity (fun _ => gs "v") [(gs "A", true), (gs "B", false)] []
      (gs "C") (by decide) (by decide) (by decide)).2.2 (by decide)⟩

end Kati
